import Mathlib

/-
  Verification of the argument splitter in src/utils/parse.py.

  The source builds on two compiled regular expressions and one function:

    _re_arg_splitter =
      \s*(?:(?:\"(?P<quoted_text>(?:(?:(?:\\\\)*)|(?:\\\")|(?:[^"]))*)\")
          |(?:(?P<text>[^\s,，]+)))(?P<tail>$|(?:\s*[,，]\s*)|(?:\s+))
    _re_remove_escaped_quote = ((?:[^\\]|^)(?:\\\\)*)\"   (with \" an escaped quote)

    split_args(args, treat_comma_as_space=False)

  Strings are modelled as List Char.  CPython's re module (for str patterns)
  and str.isspace agree on the whitespace set Py_UNICODE_ISSPACE, embedded
  below as pySpace.  The scanner below is a direct operational embedding of
  CPython's backtracking engine specialised to the fixed pattern; each
  definition carries a comment tying it to the piece of the pattern it
  implements and, where the embedding collapses backtracking that cannot
  change the outcome, a justification.
-/

set_option maxRecDepth 8000

namespace QCShared

/-- Whitespace characters of CPython's Py_UNICODE_ISSPACE, the set used both
by the regex class \s (for str patterns) and by str.isspace(). -/
def pySpace (c : Char) : Bool :=
  [9, 10, 11, 12, 13, 28, 29, 30, 31, 32, 133, 160, 5760,
   8192, 8193, 8194, 8195, 8196, 8197, 8198, 8199, 8200, 8201, 8202,
   8232, 8233, 8239, 8287, 12288].contains c.toNat

/-- The comma class [,，]: ASCII comma or the full-width comma U+FF0C. -/
def isComma (c : Char) : Bool := c = ',' || c.toNat = 0xFF0C

/-- The class [^\s,，] of characters an unquoted unit is made of. -/
def isTextChar (c : Char) : Bool := !pySpace c && !isComma c

/-- Python str.isspace(): true iff the string is nonempty and all whitespace. -/
def pyStrIsSpace (l : List Char) : Bool := !l.isEmpty && l.all pySpace

/-- The tail group $|(?:\s*[,，]\s*)|(?:\s+), matched at the position after a
unit; returns (tail text, rest of input).  Alternatives in the pattern's
order: the anchor $ (end of input, or just before a final newline, per
Python's non-MULTILINE $); a comma optionally surrounded by whitespace (the
greedy \s* before the comma cannot backtrack usefully, because a comma is not
whitespace, so the alternative succeeds exactly when the first non-whitespace
character is a comma); a nonempty whitespace run. -/
def tailMatch (r : List Char) : Option (List Char × List Char) :=
  if r = [] ∨ r = ['\n'] then some ([], r)
  else
    match r.dropWhile pySpace with
    | c :: r2 =>
      if isComma c then
        some (r.takeWhile pySpace ++ c :: r2.takeWhile pySpace, r2.dropWhile pySpace)
      else if (r.takeWhile pySpace).isEmpty then none
      else some (r.takeWhile pySpace, c :: r2)
    | [] => some (r.takeWhile pySpace, [])

/-- The quoted alternative \"(?P<quoted_text>(?:(?:(?:\\\\)*)|(?:\\\")|(?:[^"]))*)\"
followed by the tail group, entered just after the opening quote.

The content loop's body is an alternation whose first branch (?:\\\\)* can
match empty, so at every loop position CPython first tries to end the loop
and match the closing quote there; ending succeeds only at a " character.
At a " the engine therefore (a) tries to close and match the tail, and on
failure (b) backtracks into the preceding element: the quote can be consumed
(as \") exactly when the immediately preceding content character is a
backslash, freed by re-splitting the preceding backslash run into pairs and
singles.  The preference between (a) and (b) follows the greedy pair run:
with an even run of preceding backslashes the pair star swallows the run and
the loop stops at the quote first (close tried before escape); with an odd
run the leftover backslash makes \" fire first (escape tried before close).
At any non-quote character the only productive branch consumes that single
character, so no choice point remains there.

acc is the reversed content consumed so far; the result is
(quoted_text, tail, rest after tail). -/
def quotedScan (acc : List Char) : List Char → Option (List Char × List Char × List Char)
  | [] => none
  | c :: r =>
    if c = '"' then
      if (acc.takeWhile (fun d => d = '\\')).length % 2 = 0 then
        match tailMatch r with
        | some (t, after) => some (acc.reverse, t, after)
        | none =>
          if (acc.takeWhile (fun d => d = '\\')).length = 0 then none
          else quotedScan ('"' :: acc) r
      else
        match quotedScan ('"' :: acc) r with
        | some res => some res
        | none =>
          match tailMatch r with
          | some (t, after) => some (acc.reverse, t, after)
          | none => none
    else quotedScan (c :: acc) r

/-- One match of _re_arg_splitter: the leading \s* run, the two named unit
groups (exactly one of quoted_text / text is present), the raw text of the
unit, and the tail group. -/
structure ArgMatch where
  ws : List Char
  quoted : Option (List Char)
  text : Option (List Char)
  unitRaw : List Char
  tail : List Char
deriving DecidableEq, Repr

/-- Group 0 of a match: leading whitespace, the unit, and the tail. -/
def ArgMatch.raw (m : ArgMatch) : List Char := m.ws ++ m.unitRaw ++ m.tail

/-- The unquoted alternative (?P<text>[^\s,，]+) followed by the tail group,
attempted at r (first character already known non-space).  The greedy plus
takes the maximal run; the character after a maximal run is whitespace, a
comma or the end, on which the tail group always succeeds, so the run never
needs to backtrack. -/
def textRun (w r : List Char) : Option ArgMatch :=
  match tailMatch (r.dropWhile isTextChar) with
  | some (t, _) => some ⟨w, none, some (r.takeWhile isTextChar), r.takeWhile isTextChar, t⟩
  | none => none

/-- A single match attempt of _re_arg_splitter at the start of s.  The
leading \s* is greedy and cannot usefully backtrack (both unit alternatives
start with a non-whitespace character), so all leading whitespace is skipped.
Then the quoted alternative is tried first, and on its failure the unquoted
one; a comma can start neither, making the attempt fail there. -/
def matchAt (s : List Char) : Option ArgMatch :=
  match s.dropWhile pySpace with
  | [] => none
  | c :: r =>
    if isComma c then none
    else if c = '"' then
      match quotedScan [] r with
      | some (content, t, _) =>
        some ⟨s.takeWhile pySpace, some content, none, '"' :: content ++ ['"'], t⟩
      | none => textRun (s.takeWhile pySpace) (c :: r)
    else textRun (s.takeWhile pySpace) (c :: r)

/-- finditer over _re_arg_splitter: repeatedly match; a successful match
continues at its end (every match consumes at least one character), a failed
attempt retries one position later.  fuel bounds the recursion; since each
step consumes at least one character, fuel = length of the input suffices. -/
def scanArgs : Nat → List Char → List ArgMatch
  | 0, _ => []
  | _ + 1, [] => []
  | fuel + 1, c :: t =>
    match matchAt (c :: t) with
    | some m => m :: scanArgs fuel ((c :: t).drop m.raw.length)
    | none => scanArgs fuel t

/-- All matches of _re_arg_splitter over the input, in order. -/
def findMatches (s : List Char) : List ArgMatch := scanArgs s.length s

/-- Line 61: m.group("text") if m.group("text") is not None else m.group("quoted_text"). -/
def payload (m : ArgMatch) : List Char := m.text.getD (m.quoted.getD [])

/-- Lines 54-55 and 72: the tail is truthy (nonempty) and not str.isspace(),
i.e. it contains the comma. -/
def tailComma (m : ArgMatch) : Bool := !m.tail.isEmpty && !pyStrIsSpace m.tail

/-- "".join(m.group(0) for m in combine). -/
def joinRaw (ms : List ArgMatch) : List Char := (ms.map ArgMatch.raw).flatten

/-- Lines 93-108: the trailing field formed from a nonempty combine buffer.
A single buffered quoted match contributes only its quoted_text; otherwise
the raw texts of all but the last match are joined and the last match
contributes its payload (its tail dropped).  The [] case is unreachable
(guarded by "if combine:" in the source). -/
def finalArg : List ArgMatch → List Char
  | [] => []
  | m :: rest =>
    if rest.isEmpty && m.quoted.isSome then m.quoted.getD []
    else joinRaw ((m :: rest).dropLast) ++ payload (rest.getLastD m)

/-- Lines 67-108: comma-mode grouping.  Matches whose tail has no comma are
buffered; a comma-tailed match closes the field.  On a close with a truthy
text group the field is the joined raw texts of the buffer plus the text;
with an empty buffer a quoted match contributes only its quoted_text;
otherwise the joined raw texts plus the quoted_text.  (When the closing
match is quoted, its text group is None, hence falsy; a present text group
is never empty, so truthiness coincides with presence.) -/
def groupCommaGo : List ArgMatch → List ArgMatch → List (List Char)
  | combine, [] => if combine.isEmpty then [] else [finalArg combine]
  | combine, m :: rest =>
    if tailComma m then
      (if !(m.text.getD []).isEmpty then joinRaw combine ++ m.text.getD []
       else if combine.isEmpty then m.quoted.getD []
       else joinRaw combine ++ m.quoted.getD []) :: groupCommaGo [] rest
    else groupCommaGo (combine ++ [m]) rest

/-- A match attempt of _re_remove_escaped_quote = ((?:[^\\]|^)(?:\\\\)*)\"
at the head of s, with atStart telling whether this is position 0 (where the
^ alternative can apply).  A match needs group 1 (one non-backslash
character, or nothing at position 0) followed by a backslash run of odd
length k and a quote: the greedy pair star consumes (k-1)/2 pairs and the
final backslash escapes the quote.  Returns (replacement text \1", rest). -/
def escQuoteAt (atStart : Bool) (s : List Char) : Option (List Char × List Char) :=
  match s with
  | [] => none
  | c :: t =>
    if c = '\\' then
      if atStart then
        let run := s.takeWhile (fun d => d = '\\')
        if run.length % 2 = 1 ∧ (s.drop run.length).head? = some '"' then
          some (List.replicate (run.length - 1) '\\' ++ ['"'], s.drop (run.length + 1))
        else none
      else none
    else
      let run := t.takeWhile (fun d => d = '\\')
      if run.length % 2 = 1 ∧ (t.drop run.length).head? = some '"' then
        some (c :: (List.replicate (run.length - 1) '\\' ++ ['"']), t.drop (run.length + 1))
      else none

/-- re.sub over _re_remove_escaped_quote: a left-to-right scan; a match is
replaced and scanning resumes after it (non-overlapping), a non-matching
position emits its character.  fuel = length of the input suffices because
every step consumes at least one character. -/
def subQuoteF : Nat → Bool → List Char → List Char
  | 0, _, s => s
  | _ + 1, _, [] => []
  | fuel + 1, atStart, c :: t =>
    match escQuoteAt atStart (c :: t) with
    | some (rep, rest) => rep ++ subQuoteF fuel false rest
    | none => c :: subQuoteF fuel false t

/-- _re_remove_escaped_quote.sub(r'\1"', s). -/
def subQuote (s : List Char) : List Char := subQuoteF s.length true s

/-- str.replace("\\\\", "\\"): left-to-right, non-overlapping replacement of
each pair of consecutive backslashes by a single backslash. -/
def collapseBackslashes : List Char → List Char
  | [] => []
  | [c] => [c]
  | c :: d :: t =>
    if c = '\\' ∧ d = '\\' then '\\' :: collapseBackslashes t
    else c :: collapseBackslashes (d :: t)

/-- Line 111: replace \" with " and then \\ with \. -/
def resolveEscapes (s : List Char) : List Char := collapseBackslashes (subQuote s)

/-- split_args on List Char: collect the matches, decide comma mode (any
match whose tail holds a comma, unless treat_comma_as_space), build the
fields, resolve escapes. -/
def split_args_core (args : List Char) (treat_comma_as_space : Bool) : List (List Char) :=
  let ms := findMatches args
  let commaSep := ms.foldl (fun acc m => acc || (!treat_comma_as_space && tailComma m)) false
  let ret := if commaSep then groupCommaGo [] ms else ms.map payload
  ret.map resolveEscapes

/-- split_args from src/utils/parse.py. -/
def split_args (args : String) (treat_comma_as_space : Bool) : List String :=
  (split_args_core args.data treat_comma_as_space).map List.asString

/-! Reference-side definitions, written from the specification's words, to be
compared with the code-side definitions above. -/

/-- Standard whitespace tokenizer, from the spec's words: the maximal runs of
non-whitespace characters of s, in order, with empty fields dropped.  fuel
bounds the recursion; fuel = length of the input suffices. -/
def wsTokens : Nat → List Char → List (List Char)
  | 0, _ => []
  | _ + 1, [] => []
  | fuel + 1, c :: t =>
    if pySpace c then wsTokens fuel t
    else (c :: t.takeWhile (fun d => !pySpace d)) ::
      wsTokens fuel (t.dropWhile (fun d => !pySpace d))

/-- Standard whitespace tokenizer at its sufficient fuel. -/
def whitespaceTokenize (s : List Char) : List (List Char) := wsTokens s.length s

/-- First escape-resolution step as the spec words it: replace every
occurrence of an escaped quote (a backslash-quote pair whose backslash is
preceded by an even number of backslashes) with a bare quote, preserving the
preceding backslashes; k counts the backslashes scanned just before the
current position. -/
def specUnescapeQuotes (k : Nat) : List Char → List Char
  | [] => []
  | '\\' :: '"' :: t =>
    if k % 2 = 0 then '"' :: specUnescapeQuotes 0 t
    else '\\' :: '"' :: specUnescapeQuotes 0 t
  | '\\' :: t => '\\' :: specUnescapeQuotes (k + 1) t
  | c :: t => c :: specUnescapeQuotes 0 t

/-- Escape resolution as the spec describes it: unescape every
even-preceded escaped quote, then collapse backslash pairs (the second step
is word-for-word the code's replace, so its embedding is reused). -/
def specEscapeResolve (s : List Char) : List Char :=
  collapseBackslashes (specUnescapeQuotes 0 s)

/-- Interleaving of gaps and match spans: gap, span, gap, span, ..., gap.
Used to state the reconstruction invariant of the scan. -/
def interleave : List (List Char) → List (List Char) → List Char
  | g :: gs, r :: rs => g ++ r ++ interleave gs rs
  | g :: _, [] => g
  | [], rs => rs.flatten

/-! Structural lemmas about the scanner. -/

lemma tailMatch_spec {r t after : List Char} (h : tailMatch r = some (t, after)) :
    r = t ++ after ∧ ∀ c ∈ t, pySpace c = true ∨ isComma c = true := by
  unfold tailMatch at h
  split at h
  · cases h
    simp
  · split at h
    · rename_i c r2 hd
      have h2 := List.takeWhile_append_dropWhile pySpace r
      rw [hd] at h2
      split at h
      · rename_i hc
        cases h
        have h3 := List.takeWhile_append_dropWhile pySpace r2
        refine ⟨?_, ?_⟩
        · calc r = List.takeWhile pySpace r ++ c :: r2 := h2.symm
            _ = List.takeWhile pySpace r ++
                c :: (r2.takeWhile pySpace ++ r2.dropWhile pySpace) := by rw [h3]
            _ = (List.takeWhile pySpace r ++ c :: r2.takeWhile pySpace) ++
                r2.dropWhile pySpace := by simp
        · intro d hd2
          simp only [List.mem_append, List.mem_cons] at hd2
          rcases hd2 with h1 | h1 | h1
          · exact Or.inl (List.mem_takeWhile_imp h1)
          · exact Or.inr (h1 ▸ hc)
          · exact Or.inl (List.mem_takeWhile_imp h1)
      · split at h
        · exact absurd h (by simp)
        · cases h
          exact ⟨h2.symm, fun d hd2 => Or.inl (List.mem_takeWhile_imp hd2)⟩
    · rename_i hd
      cases h
      have h2 := List.takeWhile_append_dropWhile pySpace r
      rw [hd] at h2
      refine ⟨by simpa using h2.symm, fun d hd2 => Or.inl (List.mem_takeWhile_imp hd2)⟩

lemma tailMatch_none_shape {r : List Char} (h : tailMatch r = none) :
    ∃ c r2, r = c :: r2 ∧ pySpace c = false ∧ isComma c = false := by
  unfold tailMatch at h
  split at h
  · exact absurd h (by simp)
  · split at h
    · rename_i c r2 hd
      split at h
      · exact absurd h (by simp)
      · rename_i hc
        split at h
        · rename_i he
          refine ⟨c, r2, ?_, ?_, by simpa using hc⟩
          · have h2 := List.takeWhile_append_dropWhile pySpace r
            rw [hd, List.isEmpty_iff.mp he] at h2
            exact h2.symm
          · have h3 := List.head?_dropWhile_not pySpace r
            rw [hd] at h3
            simpa using h3
        · exact absurd h (by simp)
    · exact absurd h (by simp)

lemma quotedScan_spec : ∀ (s acc content t after : List Char),
    quotedScan acc s = some (content, t, after) →
    (∃ loc, content = acc.reverse ++ loc ∧ s = loc ++ '"' :: (t ++ after)) ∧
    ∀ c ∈ t, pySpace c = true ∨ isComma c = true := by
  intro s
  induction s with
  | nil => intro acc content t after h; exact absurd h (by simp [quotedScan])
  | cons c r ih =>
    intro acc content t after h
    rw [quotedScan] at h
    split at h
    · rename_i hc
      split at h
      · -- even run of preceding backslashes: close tried first
        split at h
        · rename_i t' after' htm
          cases h
          rcases tailMatch_spec htm with ⟨hr, hmem⟩
          exact ⟨⟨[], by simp, by rw [hc, hr]; simp⟩, hmem⟩
        · split at h
          · exact absurd h (by simp)
          · rcases ih _ _ _ _ h with ⟨⟨loc, hcon, hr⟩, hmem⟩
            exact ⟨⟨'"' :: loc, by rw [hcon]; simp, by rw [hc, hr]; simp⟩, hmem⟩
      · -- odd run: escape tried first, close second
        split at h
        · rename_i res hqs
          cases h
          rcases ih _ _ _ _ hqs with ⟨⟨loc, hcon, hr⟩, hmem⟩
          exact ⟨⟨'"' :: loc, by rw [hcon]; simp, by rw [hc, hr]; simp⟩, hmem⟩
        · split at h
          · rename_i t' after' htm
            cases h
            rcases tailMatch_spec htm with ⟨hr, hmem⟩
            exact ⟨⟨[], by simp, by rw [hc, hr]; simp⟩, hmem⟩
          · exact absurd h (by simp)
    · rename_i hc
      rcases ih _ _ _ _ h with ⟨⟨loc, hcon, hr⟩, hmem⟩
      exact ⟨⟨c :: loc, by rw [hcon]; simp, by rw [hr]; simp⟩, hmem⟩

lemma dropWhile_head_false {p : Char → Bool} {l : List Char} {c : Char} {r : List Char}
    (h : l.dropWhile p = c :: r) : p c = false := by
  have h3 := List.head?_dropWhile_not p l
  rw [h] at h3
  simpa using h3

lemma textRun_spec {w r : List Char} {m : ArgMatch} (h : textRun w r = some m) :
    (∃ rest, r = m.unitRaw ++ m.tail ++ rest) ∧ m.ws = w ∧
    m.unitRaw = r.takeWhile isTextChar ∧
    m.text = some (r.takeWhile isTextChar) ∧ m.quoted = none ∧
    (∀ c ∈ m.tail, pySpace c = true ∨ isComma c = true) := by
  unfold textRun at h
  split at h
  · rename_i t after htm
    cases h
    rcases tailMatch_spec htm with ⟨hr, hmem⟩
    refine ⟨⟨after, ?_⟩, rfl, rfl, rfl, rfl, hmem⟩
    conv_lhs => rw [← List.takeWhile_append_dropWhile isTextChar r]
    rw [hr]
    simp
  · exact absurd h (by simp)

lemma textRun_ne_none (w r : List Char) : textRun w r ≠ none := by
  unfold textRun
  split
  · simp
  · rename_i htm
    rcases tailMatch_none_shape htm with ⟨c, r2, hshape, hws, hcm⟩
    have hfc : isTextChar c = false := dropWhile_head_false hshape
    rw [isTextChar, hws, hcm] at hfc
    simp at hfc

lemma matchAt_spec {s : List Char} {m : ArgMatch} (h : matchAt s = some m) :
    (∃ rest, s = m.raw ++ rest) ∧ m.unitRaw ≠ [] ∧
    (∀ c ∈ m.ws, pySpace c = true) ∧
    (∀ c ∈ m.tail, pySpace c = true ∨ isComma c = true) ∧
    (∀ c ∈ payload m, c ∈ m.unitRaw) := by
  unfold matchAt at h
  split at h
  · exact absurd h (by simp)
  · rename_i c r hd
    have hsw := List.takeWhile_append_dropWhile pySpace s
    rw [hd] at hsw
    have hcs : pySpace c = false := dropWhile_head_false hd
    split at h
    · exact absurd h (by simp)
    · rename_i hcm
      have hitc : isTextChar c = true := by
        rw [isTextChar, hcs]
        simpa using hcm
      split at h
      · rename_i hq
        split at h
        · rename_i content t after hqs
          cases h
          rcases quotedScan_spec r [] content t after hqs with ⟨⟨loc, hcon, hr⟩, hmem⟩
          simp only [List.reverse_nil, List.nil_append] at hcon
          subst hcon
          refine ⟨⟨after, ?_⟩, by simp [ArgMatch.raw], ?_, ?_, ?_⟩
          · conv_lhs => rw [← hsw, hq, hr]
            simp [ArgMatch.raw]
          · intro d hd2
            exact List.mem_takeWhile_imp hd2
          · exact hmem
          · intro d hd2
            simp only [payload, Option.getD_none, Option.getD_some] at hd2
            exact List.mem_cons_of_mem _ (List.mem_append_left _ hd2)
        · rcases htr : textRun (s.takeWhile pySpace) (c :: r) with _ | m2
          · rw [htr] at h
            exact absurd h (by simp)
          · rw [htr] at h
            cases h
            rcases textRun_spec htr with ⟨⟨rest, hrr⟩, hw, hu, htx, hqd, hmem⟩
            refine ⟨⟨rest, ?_⟩, ?_, ?_, hmem, ?_⟩
            · rw [← hsw, hrr, ArgMatch.raw, hw]
              simp
            · rw [hu, List.takeWhile_cons_of_pos hitc]
              simp
            · rw [hw]
              intro d hd2
              exact List.mem_takeWhile_imp hd2
            · intro d hd2
              simp only [payload, htx, hqd, Option.getD_some] at hd2
              rw [hu]
              exact hd2
      · rcases htr : textRun (s.takeWhile pySpace) (c :: r) with _ | m2
        · exact absurd (htr ▸ h) (by simp)
        · rw [htr] at h
          cases h
          rcases textRun_spec htr with ⟨⟨rest, hrr⟩, hw, hu, htx, hqd, hmem⟩
          refine ⟨⟨rest, ?_⟩, ?_, ?_, hmem, ?_⟩
          · rw [← hsw, hrr, ArgMatch.raw, hw]
            simp
          · rw [hu, List.takeWhile_cons_of_pos hitc]
            simp
          · rw [hw]
            intro d hd2
            exact List.mem_takeWhile_imp hd2
          · intro d hd2
            simp only [payload, htx, hqd, Option.getD_some] at hd2
            rw [hu]
            exact hd2

lemma matchAt_none_cases {s : List Char} (h : matchAt s = none) :
    s.dropWhile pySpace = [] ∨
    ∃ c t, s.dropWhile pySpace = c :: t ∧ isComma c = true := by
  unfold matchAt at h
  split at h
  · rename_i hd
    exact Or.inl hd
  · rename_i c r hd
    split at h
    · rename_i hcm
      exact Or.inr ⟨c, r, hd, hcm⟩
    · rename_i hcm
      split at h
      · split at h
        · exact absurd h (by simp)
        · exact absurd h (textRun_ne_none _ _)
      · exact absurd h (textRun_ne_none _ _)

lemma scanArgs_nil : ∀ f, scanArgs f [] = [] := by
  intro f
  cases f <;> rfl

lemma matchAt_raw_pos {s : List Char} {m : ArgMatch} (h : matchAt s = some m) :
    0 < m.raw.length := by
  rcases matchAt_spec h with ⟨_, hne, _⟩
  have := List.length_pos.mpr hne
  simp only [ArgMatch.raw, List.length_append]
  omega

lemma matchAt_none_head {c : Char} {t : List Char} (h : matchAt (c :: t) = none) :
    pySpace c = true ∨ isComma c = true := by
  by_cases hws : pySpace c = true
  · exact Or.inl hws
  · have hd : (c :: t).dropWhile pySpace = c :: t :=
      List.dropWhile_cons_of_neg (by simpa using hws)
    rcases matchAt_none_cases h with h1 | ⟨d, r, h1, h2⟩
    · rw [hd] at h1
      exact absurd h1 (by simp)
    · rw [hd] at h1
      cases h1
      exact Or.inr h2

lemma scan_stable : ∀ f g s, s.length ≤ f → s.length ≤ g → scanArgs f s = scanArgs g s := by
  intro f
  induction f with
  | zero =>
    intro g s hf _
    have hs : s = [] := List.eq_nil_of_length_eq_zero (Nat.le_zero.mp hf)
    subst hs
    rw [scanArgs_nil, scanArgs_nil]
  | succ f ih =>
    intro g s hf hg
    cases s with
    | nil => rw [scanArgs_nil, scanArgs_nil]
    | cons c t =>
      cases g with
      | zero => simp at hg
      | succ g2 =>
        cases hm : matchAt (c :: t) with
        | some m =>
          simp only [scanArgs, hm]
          rcases matchAt_spec hm with ⟨⟨rest, hrest⟩, _, _⟩
          have hdrop : (c :: t).drop m.raw.length = rest := by
            rw [hrest]
            exact List.drop_left _ _
          have hpos := matchAt_raw_pos hm
          have hlen : rest.length < (c :: t).length := by
            rw [hrest]
            simp only [List.length_append]
            omega
          rw [hdrop]
          have hlc : (c :: t).length = t.length + 1 := by simp
          exact congrArg (m :: ·) (ih g2 rest (by omega) (by omega))
        | none =>
          simp only [scanArgs, hm]
          have hlc : (c :: t).length = t.length + 1 := by simp
          exact ih g2 t (by omega) (by omega)

lemma scanArgs_eq_findMatches {f : Nat} {s : List Char} (h : s.length ≤ f) :
    scanArgs f s = findMatches s := scan_stable f s.length s h le_rfl

lemma scan_match_props : ∀ f s, ∀ m ∈ scanArgs f s,
    (∀ c ∈ m.raw, c ∈ s) ∧ m.unitRaw ≠ [] ∧
    (∀ c ∈ m.tail, pySpace c = true ∨ isComma c = true) ∧
    (∀ c ∈ payload m, c ∈ m.unitRaw) ∧ (∀ c ∈ m.ws, pySpace c = true) := by
  intro f
  induction f with
  | zero =>
    intro s m hm
    simp [scanArgs] at hm
  | succ f ih =>
    intro s m hm
    cases s with
    | nil => simp [scanArgs] at hm
    | cons c t =>
      cases hma : matchAt (c :: t) with
      | some m0 =>
        simp only [scanArgs, hma, List.mem_cons] at hm
        rcases matchAt_spec hma with ⟨⟨rest, hrest⟩, hne, hws, htl, hpl⟩
        have hdrop : (c :: t).drop m0.raw.length = rest := by
          rw [hrest]
          exact List.drop_left _ _
        rcases hm with rfl | hm
        · refine ⟨?_, hne, htl, hpl, hws⟩
          intro d hd
          rw [hrest]
          exact List.mem_append_left _ hd
        · rw [hdrop] at hm
          rcases ih rest m hm with ⟨hsub, h2, h3, h4, h5⟩
          refine ⟨?_, h2, h3, h4, h5⟩
          intro d hd
          rw [hrest]
          exact List.mem_append_right _ (hsub d hd)
      | none =>
        simp only [scanArgs, hma] at hm
        rcases ih t m hm with ⟨hsub, h2, h3, h4, h5⟩
        exact ⟨fun d hd => List.mem_cons_of_mem _ (hsub d hd), h2, h3, h4, h5⟩

lemma scan_len_le : ∀ f s, (scanArgs f s).length ≤ s.length := by
  intro f
  induction f with
  | zero => intro s; simp [scanArgs]
  | succ f ih =>
    intro s
    cases s with
    | nil => simp [scanArgs]
    | cons c t =>
      cases hm : matchAt (c :: t) with
      | some m =>
        simp only [scanArgs, hm]
        rcases matchAt_spec hm with ⟨⟨rest, hrest⟩, _, _⟩
        have hdrop : (c :: t).drop m.raw.length = rest := by
          rw [hrest]
          exact List.drop_left _ _
        have hpos := matchAt_raw_pos hm
        have hlen : rest.length < (c :: t).length := by
          rw [hrest]
          simp only [List.length_append]
          omega
        rw [hdrop]
        have := ih rest
        simp only [List.length_cons] at hlen ⊢
        omega
      | none =>
        simp only [scanArgs, hm]
        have := ih t
        simp only [List.length_cons]
        omega

lemma scan_gaps : ∀ f s, s.length ≤ f → ∃ gaps : List (List Char),
    gaps.length = (scanArgs f s).length + 1 ∧
    interleave gaps ((scanArgs f s).map ArgMatch.raw) = s ∧
    ∀ c ∈ gaps.flatten, pySpace c = true ∨ isComma c = true := by
  intro f
  induction f with
  | zero =>
    intro s hf
    have hs : s = [] := List.eq_nil_of_length_eq_zero (Nat.le_zero.mp hf)
    subst hs
    exact ⟨[[]], by simp [scanArgs_nil], by simp [scanArgs_nil, interleave], by simp⟩
  | succ f ih =>
    intro s hf
    cases s with
    | nil => exact ⟨[[]], by simp [scanArgs_nil], by simp [scanArgs_nil, interleave], by simp⟩
    | cons c t =>
      cases hm : matchAt (c :: t) with
      | some m =>
        rcases matchAt_spec hm with ⟨⟨rest, hrest⟩, _, _⟩
        have hdrop : (c :: t).drop m.raw.length = rest := by
          rw [hrest]
          exact List.drop_left _ _
        have hpos := matchAt_raw_pos hm
        have hlen : rest.length < (c :: t).length := by
          rw [hrest]
          simp only [List.length_append]
          omega
        have hlc : (c :: t).length = t.length + 1 := by simp
        obtain ⟨gaps, hglen, hint, hmem⟩ := ih rest (by omega)
        refine ⟨[] :: gaps, ?_, ?_, ?_⟩
        · simp only [scanArgs, hm, hdrop, List.length_cons]
          omega
        · simp only [scanArgs, hm, hdrop, List.map_cons, interleave]
          rw [hint, List.nil_append, ← hrest]
        · simpa using hmem
      | none =>
        have hlc : (c :: t).length = t.length + 1 := by simp
        obtain ⟨gaps, hglen, hint, hmem⟩ := ih t (by omega)
        obtain ⟨g0, gs, rfl⟩ : ∃ g0 gs, gaps = g0 :: gs := by
          cases gaps with
          | nil => simp at hglen
          | cons a b => exact ⟨a, b, rfl⟩
        refine ⟨(c :: g0) :: gs, ?_, ?_, ?_⟩
        · simp only [scanArgs, hm]
          simpa using hglen
        · simp only [scanArgs, hm]
          cases hsc : (scanArgs f t).map ArgMatch.raw with
          | nil =>
            rw [hsc] at hint
            rw [interleave] at hint ⊢
            rw [hint]
          | cons r rs =>
            rw [hsc] at hint
            rw [interleave] at hint ⊢
            simp only [List.cons_append]
            rw [hint]
        · intro d hd
          simp only [List.flatten_cons, List.mem_append, List.mem_cons] at hd
          rcases hd with (rfl | hd) | hd
          · exact matchAt_none_head hm
          · exact hmem d (by simp only [List.flatten_cons, List.mem_append]; exact Or.inl hd)
          · exact hmem d (by simp only [List.flatten_cons, List.mem_append]; exact Or.inr hd)

lemma foldl_or_eq (g : ArgMatch → Bool) : ∀ (ms : List ArgMatch) (b : Bool),
    ms.foldl (fun a m => a || g m) b = (b || ms.any g) := by
  intro ms
  induction ms with
  | nil => intro b; simp
  | cons m rest ih =>
    intro b
    simp only [List.foldl_cons, List.any_cons, ih, Bool.or_assoc]

lemma groupCommaGo_len : ∀ (ms combine : List ArgMatch),
    (groupCommaGo combine ms).length ≤
      ms.length + (if combine.isEmpty then 0 else 1) := by
  intro ms
  induction ms with
  | nil =>
    intro combine
    cases combine <;> simp [groupCommaGo]
  | cons m rest ih =>
    intro combine
    rw [groupCommaGo]
    split
    · simp only [List.length_cons]
      have h1 := ih []
      simp only [List.isEmpty_nil, if_pos] at h1
      split <;> omega
    · have h1 := ih (combine ++ [m])
      have hne : ((combine ++ [m]).isEmpty) = false := by simp
      rw [hne] at h1
      simp at h1
      simp only [List.length_cons]
      split <;> omega

lemma escQuoteAt_no_backslash {b : Bool} {s : List Char} (h : '\\' ∉ s) :
    escQuoteAt b s = none := by
  cases s with
  | nil => rfl
  | cons c t =>
    rw [escQuoteAt]
    have hc : ¬ c = '\\' := fun hh => h (by simp [hh])
    rw [if_neg hc]
    have ht : t.takeWhile (fun d => d = '\\') = [] := by
      by_contra hne
      obtain ⟨d, hd⟩ := List.exists_mem_of_ne_nil _ hne
      have h1 : d = '\\' := by simpa using List.mem_takeWhile_imp hd
      have h2 : d ∈ t := (List.takeWhile_sublist _).subset hd
      exact h (by rw [← h1]; exact List.mem_cons_of_mem _ h2)
    rw [ht]
    simp

lemma subQuoteF_no_backslash : ∀ f b s, '\\' ∉ s → subQuoteF f b s = s := by
  intro f
  induction f with
  | zero => intro b s _; rfl
  | succ f ih =>
    intro b s h
    cases s with
    | nil => rfl
    | cons c t =>
      rw [subQuoteF, escQuoteAt_no_backslash h]
      rw [ih false t (fun hm => h (List.mem_cons_of_mem _ hm))]

lemma collapseBackslashes_no_backslash : ∀ s, '\\' ∉ s → collapseBackslashes s = s := by
  have key : ∀ n (s : List Char), s.length ≤ n → '\\' ∉ s → collapseBackslashes s = s := by
    intro n
    induction n with
    | zero =>
      intro s h1 _
      have hs : s = [] := List.eq_nil_of_length_eq_zero (Nat.le_zero.mp h1)
      subst hs
      rfl
    | succ n ih =>
      intro s h1 h2
      cases s with
      | nil => rfl
      | cons c t =>
        cases t with
        | nil => rfl
        | cons d t2 =>
          rw [collapseBackslashes]
          have hc : ¬(c = '\\' ∧ d = '\\') := fun hp => h2 (by simp [hp.1])
          rw [if_neg hc]
          congr 1
          refine ih (d :: t2) (by simp only [List.length_cons] at h1 ⊢; omega)
            (fun hm => h2 (List.mem_cons_of_mem _ hm))
  exact fun s => key s.length s le_rfl

lemma resolveEscapes_no_backslash {s : List Char} (h : '\\' ∉ s) :
    resolveEscapes s = s := by
  rw [resolveEscapes, subQuote, subQuoteF_no_backslash _ _ _ h,
    collapseBackslashes_no_backslash _ h]

lemma commaSep_false {s : List Char} (flag : Bool) (h : ∀ c ∈ s, isComma c = false) :
    ((findMatches s).foldl (fun acc m => acc || (!flag && tailComma m)) false) = false := by
  rw [foldl_or_eq]
  simp only [Bool.false_or]
  rw [List.any_eq_false]
  intro m hm
  rcases scan_match_props s.length s m hm with ⟨hsub, _, htl, _, _⟩
  have htc : tailComma m = false := by
    rw [tailComma]
    cases hmt : m.tail with
    | nil => simp
    | cons a b =>
      have hall : ∀ d ∈ m.tail, pySpace d = true := by
        intro d hd
        rcases htl d hd with h1 | h1
        · exact h1
        · have hds : d ∈ s := hsub d (by
            rw [ArgMatch.raw]
            exact List.mem_append_right _ hd)
          rw [h d hds] at h1
          cases h1
      have : pyStrIsSpace m.tail = true := by
        rw [pyStrIsSpace, hmt]
        simp only [List.isEmpty_cons, Bool.not_false, Bool.true_and]
        rw [List.all_eq_true]
        intro d hd
        exact hall d (hmt ▸ hd)
      rw [hmt] at this
      rw [this]
      simp
  rw [htc]
  simp

lemma scan_ws_comma_nil : ∀ f s, (∀ c ∈ s, pySpace c = true ∨ isComma c = true) →
    scanArgs f s = [] := by
  intro f
  induction f with
  | zero => intro s _; rfl
  | succ f ih =>
    intro s h
    cases s with
    | nil => rfl
    | cons c t =>
      have hma : matchAt (c :: t) = none := by
        cases hd : (c :: t).dropWhile pySpace with
        | nil => simp only [matchAt, hd]
        | cons d r =>
          have hdws : pySpace d = false := dropWhile_head_false hd
          have hdm : d ∈ c :: t := (List.dropWhile_sublist _).subset (by rw [hd]; simp)
          have hdc : isComma d = true := by
            rcases h d hdm with h1 | h1
            · rw [h1] at hdws
              cases hdws
            · exact h1
          simp only [matchAt, hd, hdc]
          simp
      simp only [scanArgs, hma]
      exact ih t (fun d hd => h d (List.mem_cons_of_mem _ hd))

/-! Lemmas about the reference whitespace tokenizer, used for the
refinement comparison. -/

lemma wsTokens_nil : ∀ f, wsTokens f [] = [] := by
  intro f
  cases f <;> rfl

lemma wsTokens_stable : ∀ f g s, s.length ≤ f → s.length ≤ g →
    wsTokens f s = wsTokens g s := by
  intro f
  induction f with
  | zero =>
    intro g s hf _
    have hs : s = [] := List.eq_nil_of_length_eq_zero (Nat.le_zero.mp hf)
    subst hs
    rw [wsTokens_nil, wsTokens_nil]
  | succ f ih =>
    intro g s hf hg
    cases s with
    | nil => rw [wsTokens_nil, wsTokens_nil]
    | cons c t =>
      cases g with
      | zero => simp at hg
      | succ g2 =>
        rw [wsTokens, wsTokens]
        have hlc : (c :: t).length = t.length + 1 := by simp
        by_cases hc : pySpace c = true
        · rw [if_pos hc, if_pos hc]
          exact ih g2 t (by omega) (by omega)
        · rw [if_neg hc, if_neg hc]
          have hd : (t.dropWhile (fun d => !pySpace d)).length ≤ t.length :=
            (List.dropWhile_sublist _).length_le
          exact congrArg _ (ih g2 _ (by omega) (by omega))

lemma whitespaceTokenize_cons_ws {c : Char} {t : List Char} (h : pySpace c = true) :
    whitespaceTokenize (c :: t) = whitespaceTokenize t := by
  rw [whitespaceTokenize, whitespaceTokenize]
  have hlc : (c :: t).length = t.length + 1 := by simp
  rw [hlc, wsTokens, if_pos h]

lemma whitespaceTokenize_ws_append : ∀ (w x : List Char),
    (∀ c ∈ w, pySpace c = true) → whitespaceTokenize (w ++ x) = whitespaceTokenize x := by
  intro w
  induction w with
  | nil => intro x _; rfl
  | cons c w2 ih =>
    intro x h
    rw [List.cons_append, whitespaceTokenize_cons_ws (h c (by simp))]
    exact ih x (fun d hd => h d (List.mem_cons_of_mem _ hd))

lemma whitespaceTokenize_run {u x : List Char} (hu : u ≠ [])
    (hnws : ∀ c ∈ u, pySpace c = false)
    (hx : ∀ (d : Char) (t2 : List Char), x = d :: t2 → pySpace d = true) :
    whitespaceTokenize (u ++ x) = u :: whitespaceTokenize x := by
  cases u with
  | nil => exact absurd rfl hu
  | cons c u2 =>
    have hc : pySpace c = false := hnws c (by simp)
    have htw : (u2 ++ x).takeWhile (fun d => !pySpace d) = u2 := by
      rw [List.takeWhile_append_of_pos
        (fun d hd => by simp [hnws d (List.mem_cons_of_mem _ hd)])]
      have : x.takeWhile (fun d => !pySpace d) = [] := by
        cases hx2 : x with
        | nil => rfl
        | cons d t2 => rw [List.takeWhile_cons_of_neg (by simp [hx d t2 hx2])]
      rw [this, List.append_nil]
    have hdw : (u2 ++ x).dropWhile (fun d => !pySpace d) = x := by
      rw [List.dropWhile_append_of_pos
        (fun d hd => by simp [hnws d (List.mem_cons_of_mem _ hd)])]
      cases hx2 : x with
      | nil => rfl
      | cons d t2 => rw [List.dropWhile_cons_of_neg (by simp [hx d t2 hx2])]
    rw [whitespaceTokenize]
    have hlc : ((c :: u2) ++ x).length = (u2 ++ x).length + 1 := by simp
    rw [hlc, List.cons_append, wsTokens, if_neg (by simp [hc]), htw, hdw]
    have hxlen : x.length ≤ (u2 ++ x).length := by
      simp only [List.length_append]
      omega
    rw [wsTokens_stable _ x.length x hxlen le_rfl]
    rfl

lemma tailMatch_cf {r2 : List Char} (hcf : ∀ c ∈ r2, isComma c = false)
    (hws : ∀ (d : Char) (t2 : List Char), r2 = d :: t2 → pySpace d = true) :
    ∃ t after, tailMatch r2 = some (t, after) ∧ r2 = t ++ after ∧
      whitespaceTokenize after = whitespaceTokenize r2 := by
  by_cases hend : r2 = [] ∨ r2 = ['\n']
  · refine ⟨[], r2, ?_, rfl, rfl⟩
    rw [tailMatch, if_pos hend]
  · have hsome : tailMatch r2 =
        some (r2.takeWhile pySpace, r2.dropWhile pySpace) := by
      rw [tailMatch, if_neg hend]
      cases hd : r2.dropWhile pySpace with
      | nil => rfl
      | cons d r3 =>
        dsimp only
        have hdws : pySpace d = false := dropWhile_head_false hd
        have hdm : d ∈ r2 := (List.dropWhile_sublist _).subset (by rw [hd]; simp)
        rw [if_neg (by simp [hcf d hdm])]
        have hne : (r2.takeWhile pySpace).isEmpty = false := by
          cases hr2 : r2 with
          | nil => simp [hr2] at hd
          | cons a t2 =>
            rw [List.takeWhile_cons_of_pos (hws a t2 hr2)]
            simp
        rw [hne]
        simp
    refine ⟨r2.takeWhile pySpace, r2.dropWhile pySpace, hsome, ?_, ?_⟩
    · exact (List.takeWhile_append_dropWhile pySpace r2).symm
    · conv_rhs => rw [← List.takeWhile_append_dropWhile pySpace r2]
      rw [whitespaceTokenize_ws_append _ _
        (fun d hd => List.mem_takeWhile_imp hd)]

lemma findMatches_cons_step {s rest : List Char} {m : ArgMatch}
    (hma : matchAt s = some m) (hrest : s = m.raw ++ rest) :
    findMatches s = m :: findMatches rest := by
  obtain ⟨a, s2, hs⟩ : ∃ a s2, s = a :: s2 := by
    cases s with
    | nil => simp [matchAt] at hma
    | cons a s2 => exact ⟨a, s2, rfl⟩
  subst hs
  have hlc : (a :: s2).length = s2.length + 1 := by simp
  simp only [findMatches, hlc, scanArgs, hma]
  have hdrop : (a :: s2).drop m.raw.length = rest := by
    rw [hrest]
    exact List.drop_left _ _
  rw [hdrop]
  have hpos := matchAt_raw_pos hma
  have hlen : rest.length ≤ s2.length := by
    have h2 : (a :: s2).length = m.raw.length + rest.length := by
      rw [hrest]
      simp
    simp only [List.length_cons] at h2
    omega
  rw [scanArgs_eq_findMatches hlen, findMatches]

lemma scan_tokens_cq : ∀ n s, s.length ≤ n → (∀ c ∈ s, isComma c = false) →
    ('"' ∉ s) → (findMatches s).map payload = whitespaceTokenize s := by
  intro n
  induction n with
  | zero =>
    intro s h1 _ _
    have hs : s = [] := List.eq_nil_of_length_eq_zero (Nat.le_zero.mp h1)
    subst hs
    rfl
  | succ n ih =>
    intro s hlen hcf hqf
    cases hd : s.dropWhile pySpace with
    | nil =>
      have hall : ∀ c ∈ s, pySpace c = true := List.dropWhile_eq_nil_iff.mp hd
      have h1 : findMatches s = [] :=
        scan_ws_comma_nil _ _ (fun c hc => Or.inl (hall c hc))
      have h2 := whitespaceTokenize_ws_append s [] hall
      rw [List.append_nil] at h2
      rw [h1, h2]
      rfl
    | cons c r =>
      have hcmem : c ∈ s := (List.dropWhile_sublist _).subset (by rw [hd]; simp)
      have hcs : pySpace c = false := dropWhile_head_false hd
      have hcm : isComma c = false := hcf c hcmem
      have hcq : ¬ c = '"' := fun hq => hqf (hq ▸ hcmem)
      have hitc : isTextChar c = true := by
        rw [isTextChar, hcs, hcm]
        rfl
      have hsub : ∀ d ∈ (c :: r), d ∈ s :=
        fun d hdm => (List.dropWhile_sublist pySpace).subset (by rw [hd]; exact hdm)
      have hcf2 : ∀ d ∈ (c :: r).dropWhile isTextChar, isComma d = false :=
        fun d hdm => hcf d (hsub d ((List.dropWhile_sublist _).subset hdm))
      have hws2 : ∀ (d : Char) (t2 : List Char),
          (c :: r).dropWhile isTextChar = d :: t2 → pySpace d = true := by
        intro d t2 hdt
        have h1 : isTextChar d = false := dropWhile_head_false hdt
        have h2 : isComma d = false := hcf2 d (by rw [hdt]; simp)
        rw [isTextChar, h2] at h1
        simpa using h1
      obtain ⟨t, after, htm, hsplit, hWT⟩ := tailMatch_cf hcf2 hws2
      have hma : matchAt s = some ⟨s.takeWhile pySpace, none,
          some ((c :: r).takeWhile isTextChar), (c :: r).takeWhile isTextChar, t⟩ := by
        simp only [matchAt, hd]
        rw [if_neg (by simp [hcm]), if_neg hcq]
        simp only [textRun, htm]
      have hdecomp : s = (s.takeWhile pySpace ++
          (c :: r).takeWhile isTextChar ++ t) ++ after := by
        conv_lhs => rw [← List.takeWhile_append_dropWhile pySpace s, hd,
          ← List.takeWhile_append_dropWhile isTextChar (c :: r), hsplit]
        simp [List.append_assoc]
      have hstep := findMatches_cons_step hma (by simpa [ArgMatch.raw] using hdecomp)
      rw [hstep, List.map_cons]
      have hafter_sub : ∀ d ∈ after, d ∈ s := by
        intro d hdm
        rw [hdecomp]
        exact List.mem_append_right _ hdm
      have hlen2 : after.length ≤ n := by
        have h2 : s.length = (s.takeWhile pySpace ++
            (c :: r).takeWhile isTextChar ++ t).length + after.length := by
          conv_lhs => rw [hdecomp]
          simp only [List.length_append]
        have hpos : 0 < ((c :: r).takeWhile isTextChar).length := by
          rw [List.takeWhile_cons_of_pos hitc]
          simp
        simp only [List.length_append] at h2
        omega
      rw [ih after hlen2 (fun d hdm => hcf d (hafter_sub d hdm))
        (fun hq => hqf (hafter_sub _ hq))]
      have hpay : payload ⟨s.takeWhile pySpace, none,
          some ((c :: r).takeWhile isTextChar), (c :: r).takeWhile isTextChar, t⟩ =
          (c :: r).takeWhile isTextChar := rfl
      rw [hpay, hWT]
      have hchain : whitespaceTokenize s =
          (c :: r).takeWhile isTextChar ::
            whitespaceTokenize ((c :: r).dropWhile isTextChar) := by
        conv_lhs => rw [← List.takeWhile_append_dropWhile pySpace s, hd]
        rw [whitespaceTokenize_ws_append _ _
          (fun d hdm => List.mem_takeWhile_imp hdm)]
        conv_lhs => rw [← List.takeWhile_append_dropWhile isTextChar (c :: r)]
        refine whitespaceTokenize_run ?_ ?_ hws2
        · rw [List.takeWhile_cons_of_pos hitc]
          simp
        · intro d hdm
          have h1 : isTextChar d = true := List.mem_takeWhile_imp hdm
          rw [isTextChar] at h1
          rcases Bool.and_eq_true_iff.mp h1 with ⟨h2, _⟩
          simpa using h2
      rw [hchain]

lemma split_args_ws_mode {s : List Char} {flag : Bool}
    (h : (findMatches s).foldl (fun acc m => acc || (!flag && tailComma m)) false
      = false) :
    split_args_core s flag = ((findMatches s).map payload).map resolveEscapes := by
  simp only [split_args_core]
  rw [h]
  simp

end QCShared

namespace QCClaims

open QCShared

/-- Claim C1, counterexample: the spec's example split('"A" B, C', false) ==
["A B","C"] is false on the code; the merged field keeps the quoted unit's
raw span, quotes included. -/
theorem c1_claimed_strip_fails :
    split_args "\"A\" B, C" false ≠ ["A B", "C"] := by decide

/-- Claim C1 (amended): in comma mode a quoted unit followed, without an
intervening comma, by unquoted text merges into one output field, but the
quoted unit contributes its raw span verbatim - quote delimiters and
trailing whitespace kept - so split_args('"A" B, C', False) == ['"A" B', 'C'];
in whitespace mode (treat_comma_as_space = True) the same input remains three
separate fields, with the quote delimiters stripped. -/
theorem c1_comma_mode_adjacent_merge :
    split_args "\"A\" B, C" false = ["\"A\" B", "C"] ∧
    split_args "\"A\" B, C" true = ["A", "B", "C"] := by decide

/-- Claim C2, counterexample: with treat_comma_as_space = True a comma is
not an ordinary character; split_args("A,B", True) is ["A","B"], not
["A,B"]. -/
theorem c2_comma_separates_when_flag_true :
    split_args "A,B" true ≠ ["A,B"] := by decide

/-- Claim C2 (amended): when treat_comma_as_space is true, comma MODE is
never used: for every input the result is the whitespace-mode payload list,
so a comma outside quotes still separates arguments, exactly as whitespace
does (it is consumed as a delimiter and never appears in the output). -/
theorem c2_flag_true_whitespace_mode (s : String) :
    split_args s true =
      (findMatches s.data).map (fun m => (resolveEscapes (payload m)).asString) := by
  have h : (findMatches s.data).foldl
      (fun acc m => acc || (!true && tailComma m)) false = false := by
    rw [foldl_or_eq]
    simp
  rw [split_args, split_args_ws_mode h]
  simp [List.map_map, Function.comp]

/-- Claim C3, counterexample: on an input with an unterminated quoted
suffix the scan does not stop; split_args('A "B C', False) is not ["A"]. -/
theorem c3_no_silent_drop :
    split_args "A \"B C" false ≠ ["A"] := by decide

/-- Claim C3 (amended): the lexical scan never fails on an unterminated
quote: the opening quote is consumed as an ordinary character of an
unquoted unit and the rest of the input is still tokenized
(split_args('A "B C', False) == ['A', '"B', 'C'] and
split_args('A "', False) == ['A', '"']); only whitespace and comma
characters are ever dropped from the input. -/
theorem c3_unterminated_quote_tokenized :
    split_args "A \"B C" false = ["A", "\"B", "C"] ∧
    split_args "A \"" false = ["A", "\""] := by decide

/-- Claim C4, counterexample: concatenating the raw spans of all matches
does not always reconstruct the input; on "A,,B" the second comma is
skipped by the scanner. -/
theorem c4_exact_reconstruction_fails :
    ((findMatches ("A,,B").data).map ArgMatch.raw).flatten ≠ ("A,,B").data := by
  decide

/-- Claim C4 (amended): the scan is in order and non-overlapping, and the
input is reconstructed by interleaving the raw spans with skipped gaps,
every character of which is whitespace or a comma (so concatenating the raw
spans reconstructs the input exactly up to skipped whitespace/comma
characters). -/
theorem c4_scan_reconstruction_with_gaps (s : String) :
    ∃ gaps : List (List Char),
      gaps.length = (findMatches s.data).length + 1 ∧
      interleave gaps ((findMatches s.data).map ArgMatch.raw) = s.data ∧
      ∀ c ∈ gaps.flatten, pySpace c = true ∨ isComma c = true :=
  scan_gaps s.data.length s.data le_rfl

/-- Claim C5, counterexample: on the comma-free, quote-free input of two
backslashes, split_args collapses the pair while a whitespace tokenizer
keeps it, so the claimed equivalence fails. -/
theorem c5_backslash_breaks_equivalence :
    (∀ c ∈ ("\\\\").data, isComma c = false ∧ c ≠ '"') ∧
    split_args "\\\\" false = ["\\"] ∧
    (whitespaceTokenize ("\\\\").data).map List.asString = ["\\\\"] ∧
    split_args "\\\\" false ≠ (whitespaceTokenize ("\\\\").data).map List.asString := by
  decide

/-- Claim C5 (amended): for every input containing no comma (ASCII or
full-width), no double quote and no backslash, split_args(s, False) equals
the standard whitespace tokenizer on s (maximal non-whitespace runs, in
order, empty fields dropped). -/
theorem c5_ws_tokenizer_no_specials (s : String)
    (h : ∀ c ∈ s.data, isComma c = false ∧ c ≠ '"' ∧ c ≠ '\\') :
    split_args s false = (whitespaceTokenize s.data).map List.asString := by
  have hcf : ∀ c ∈ s.data, isComma c = false := fun c hc => (h c hc).1
  have hqf : '"' ∉ s.data := fun hq => (h _ hq).2.1 rfl
  have hbf : '\\' ∉ s.data := fun hb => (h _ hb).2.2 rfl
  rw [split_args, split_args_ws_mode (commaSep_false false hcf)]
  have hid : ((findMatches s.data).map payload).map resolveEscapes =
      (findMatches s.data).map payload := by
    rw [List.map_map]
    refine List.map_congr_left ?_
    intro m hm
    rcases scan_match_props s.data.length s.data m hm with ⟨hsub, _, _, hpl, _⟩
    refine resolveEscapes_no_backslash ?_
    intro hb
    exact hbf (hsub _ (by
      rw [ArgMatch.raw]
      exact List.mem_append_left _ (List.mem_append_right _ (hpl _ hb))))
  rw [hid, scan_tokens_cq s.data.length s.data le_rfl hcf hqf]

/-- Claim C5 witness: the amended equivalence at a concrete comma-free,
quote-free, backslash-free input. -/
theorem c5_ws_tokenizer_witness :
    (∀ c ∈ ("ab  cd e").data, isComma c = false ∧ c ≠ '"' ∧ c ≠ '\\') ∧
    split_args "ab  cd e" false =
      (whitespaceTokenize ("ab  cd e").data).map List.asString :=
  ⟨by decide, c5_ws_tokenizer_no_specials "ab  cd e" (by decide)⟩

/-- Claim C6, counterexample: the code's escape resolution scans
left-to-right consuming the character before each escaped quote, so in the
field \"\" (produced from the input "\"\"") the second escaped quote is not
replaced: the code yields "\" where the spec's described replacement of
every occurrence yields "". -/
theorem c6_adjacent_escape_not_replaced :
    split_args "\"\\\"\\\"\"" false = [(resolveEscapes ("\\\"\\\"").data).asString] ∧
    resolveEscapes ("\\\"\\\"").data = ("\"\\\"").data ∧
    specEscapeResolve ("\\\"\\\"").data = ("\"\"").data ∧
    resolveEscapes ("\\\"\\\"").data ≠ specEscapeResolve ("\\\"\\\"").data := by
  decide

/-- Claim C6 (amended): escape resolution first rewrites escaped quotes by a
single left-to-right non-overlapping scan - each match consumes the
preceding non-backslash character together with the preceding even run of
backslashes, so an escaped quote starting where the previous match ended is
left unchanged - and then collapses pairs of consecutive backslashes:
a\"b becomes a"b, backslash-pair + \" becomes (after both steps) \",
a lone pair collapses to one backslash, and the adjacent-escape field \"\"
becomes "\" rather than "". -/
theorem c6_escape_resolution_scan :
    resolveEscapes ("a\\\"b").data = ("a\"b").data ∧
    resolveEscapes ("\\\\\\\"").data = ("\\\"").data ∧
    resolveEscapes ("\\\\").data = ("\\").data ∧
    resolveEscapes ("\\\"\\\"").data = ("\"\\\"").data := by decide

/-- Claim C7: in comma mode a quoted field containing an internal comma is
not split at that comma, and the quote delimiters are stripped:
split_args('"A, B" , C', False) == ["A, B", "C"]. -/
theorem c7_quoted_internal_comma :
    split_args "\"A, B\" , C" false = ["A, B", "C"] := by decide

/-- Claim C8: split_args is a bounded linear pass: the result never has
more fields than the input has characters, and the scan is insensitive to
any fuel bound of at least the input length (which is exactly its
termination argument: at most one step per input character). -/
theorem c8_scan_bounded_total (s : String) (flag : Bool) :
    (split_args s flag).length ≤ s.length ∧
    ∀ fuel, s.data.length ≤ fuel → scanArgs fuel s.data = findMatches s.data := by
  constructor
  · rw [split_args, List.length_map]
    have hms : (findMatches s.data).length ≤ s.data.length := scan_len_le _ _
    have hcore : (split_args_core s.data flag).length ≤
        (findMatches s.data).length := by
      simp only [split_args_core, List.length_map]
      split
      · have h1 := groupCommaGo_len (findMatches s.data) []
        simpa using h1
      · simp
    have hsl : s.length = s.data.length := rfl
    omega
  · intro fuel hf
    exact scanArgs_eq_findMatches hf

/-- Claim C8 witness: the bound and fuel-insensitivity at a concrete
input. -/
theorem c8_scan_bounded_witness :
    (split_args "A, B" false).length ≤ ("A, B" : String).length ∧
    scanArgs 9 ("A, B").data = findMatches ("A, B").data :=
  ⟨(c8_scan_bounded_total "A, B" false).1,
   (c8_scan_bounded_total "A, B" false).2 9 (by decide)⟩

/-- Claim C9: an input consisting only of whitespace characters and commas
(including the empty input) produces no matches and split_args returns the
empty list, for either flag value. -/
theorem c9_ws_comma_only_empty (s : String) (flag : Bool)
    (h : ∀ c ∈ s.data, pySpace c = true ∨ isComma c = true) :
    split_args s flag = [] := by
  have hms : findMatches s.data = [] := scan_ws_comma_nil _ _ h
  simp [split_args, split_args_core, hms]

/-- Claim C9 witness: the empty result at a whitespace-and-comma input
(with a full-width comma) and at the empty input. -/
theorem c9_ws_comma_only_witness :
    (∀ c ∈ (" ,， ").data, pySpace c = true ∨ isComma c = true) ∧
    split_args " ,， " true = [] ∧ split_args "" false = [] :=
  ⟨by decide, c9_ws_comma_only_empty " ,， " true (by decide),
   c9_ws_comma_only_empty "" false (by decide)⟩

/-- Claim C10: on an input with no ASCII and no full-width comma anywhere,
the treat_comma_as_space flag is observationally irrelevant. -/
theorem c10_no_comma_flag_irrelevant (s : String)
    (h : ∀ c ∈ s.data, isComma c = false) :
    split_args s true = split_args s false := by
  rw [split_args, split_args, split_args_ws_mode (commaSep_false true h),
    split_args_ws_mode (commaSep_false false h)]

/-- Claim C10 witness: flag irrelevance at a concrete comma-free input. -/
theorem c10_no_comma_witness :
    (∀ c ∈ ("A \"B\" C").data, isComma c = false) ∧
    split_args "A \"B\" C" true = split_args "A \"B\" C" false :=
  ⟨by decide, c10_no_comma_flag_irrelevant "A \"B\" C" (by decide)⟩

end QCClaims
